import Mathlib

/-!
Verification of the `telllm` session engine: a shallow embedding of
`src/session.rs` (per-connection session state machine), `src/logger.rs`
(per-client chat log and key-value summary record) and `src/llm.rs`
(completion client), together with theorems settling the specification
claims about them.

External effects (the TCP stream, the filesystem, the HTTP call, the
wall clock) are passed in explicitly: the completion result, the outcome
of persisting the summary, and the current timestamp are parameters of
the embedded functions, exactly where the Rust code performs the
corresponding I/O.
-/

namespace Telllm

/-- Rust `str::to_lowercase`, modelled per character (the strings it is
applied to — command tokens and summary keys — are plain ASCII). -/
def to_lower (s : String) : String := ⟨s.data.map Char.toLower⟩

/-- Rust `str::trim` on the character list: drop whitespace from both ends. -/
def trim_cl (l : List Char) : List Char :=
  ((l.dropWhile Char.isWhitespace).reverse.dropWhile Char.isWhitespace).reverse

/-- Rust `str::trim` lifted to `String`. -/
def rust_trim (s : String) : String := ⟨trim_cl s.data⟩

/-- Rust `str::starts_with(c)` for a single character. -/
def starts_with_char (s : String) (c : Char) : Bool :=
  match s.data with
  | [] => false
  | x :: _ => x = c

/-- One role-tagged message of a conversation (`Message` in `src/llm.rs`). -/
structure Message where
  role : String
  content : String
deriving Repr, DecidableEq

/-- In-memory per-connection state (`SessionState` in `src/session.rs`):
the conversation history and the optional user name. -/
structure SessionState where
  messages : List Message
  user_name : Option String
deriving Repr, DecidableEq

/-- `SessionState::build_system_prompt`: the base prompt, augmented with a
naming instruction when a user name is known. -/
def build_system_prompt (base_prompt : String) (user_name : Option String) : String :=
  match user_name with
  | some name =>
      base_prompt ++ "\n\nThe user's name is " ++ name
        ++ ". Address them by name when appropriate."
  | none => base_prompt

/-- `SessionState::new`: a single system turn holding the built prompt. -/
def SessionState.new (system_prompt : String) (user_name : Option String) : SessionState :=
  { messages := [⟨"system", build_system_prompt system_prompt user_name⟩],
    user_name := user_name }

/-- `SessionState::update_user_name`: record the name and rebuild the
content of the first message (a no-op on the empty list, mirroring
`first_mut`). -/
def SessionState.update_user_name (st : SessionState) (name : String)
    (base_prompt : String) : SessionState :=
  { user_name := some name,
    messages :=
      match st.messages with
      | [] => []
      | m :: rest => { m with content := build_system_prompt base_prompt (some name) } :: rest }

/-- Split a character list at the first occurrence of `c`
(the semantics of Rust `str::splitn(2, c)` restricted to two pieces):
`none` when `c` does not occur. -/
def split_first (c : Char) : List Char → Option (List Char × List Char)
  | [] => none
  | x :: xs =>
      if x = c then some ([], xs)
      else
        match split_first c xs with
        | none => none
        | some (a, b) => some (x :: a, b)

/-- `input.splitn(2, ' ')` from `SessionState::handle_command`: the part
before the first space, and (when a space occurs) the rest. -/
def splitn2_space (s : String) : String × Option String :=
  match split_first ' ' s.data with
  | none => (s, none)
  | some (a, b) => (⟨a⟩, some ⟨b⟩)

/-- The command token and argument as computed at the top of
`SessionState::handle_command`: lowercased first space-delimited token,
trimmed remainder. -/
def parse_command (input : String) : String × Option String :=
  let parts := splitn2_space input
  (to_lower parts.1, parts.2.map rust_trim)

/-- `CommandResult` in `src/session.rs`. -/
inductive CommandResult where
  | Quit
  | Continue
  | Message (msg : String)
deriving Repr, DecidableEq

/-- The static help text emitted by `/help`. -/
def help_text : String :=
  "\nCommands:\n  /name <your name>  - Set your name\n  /clear             - Clear conversation history\n  /help              - Show this help\n  /quit              - Disconnect\n"

/-- `SessionState::handle_command`. The result of
`logger.update_summary("name", name)` is passed in as `save_err`
(`none` for success, `some e` for the error string). -/
def SessionState.handle_command (st : SessionState) (input : String)
    (base_prompt : String) (save_err : Option String) :
    SessionState × CommandResult :=
  let parsed := parse_command input
  let cmd := parsed.1
  let arg := parsed.2
  if cmd = "/quit" ∨ cmd = "/exit" ∨ cmd = "/q" then
    (st, CommandResult.Quit)
  else if cmd = "/name" then
    match arg with
    | some name =>
        let st' := st.update_user_name name base_prompt
        match save_err with
        | some e => (st', CommandResult.Message ("\nError saving name: " ++ e ++ "\n"))
        | none => (st', CommandResult.Message ("\nName set to: " ++ name ++ "\n"))
    | none => (st, CommandResult.Message "\nUsage: /name <your name>\n")
  else if cmd = "/clear" then
    ({ st with messages := st.messages.take 1 }, CommandResult.Message "\nConversation cleared.\n")
  else if cmd = "/help" ∨ cmd = "/?" then
    (st, CommandResult.Message help_text)
  else
    (st, CommandResult.Message ("\nUnknown command: " ++ cmd ++ "\n"))

/-- Result of the completion call, as seen by `Session::run`
(`self.llm.chat(...)`). -/
inductive LlmResult where
  | ok (response : String)
  | err (e : String)
deriving Repr, DecidableEq

/-- Everything one iteration of the `Session::run` loop produces:
the new state, the chat-log lines appended (label, content), the bytes
written to the client, and whether the loop breaks (quit). -/
structure StepResult where
  state : SessionState
  log : List (String × String)
  out : List String
  quit : Bool
deriving Repr, DecidableEq

/-- One iteration of the `Session::run` loop on a received line.
`save_err` is the outcome `update_summary` would report (used by `/name`),
`llm` the outcome of the completion call (used by the chat path). -/
def session_step (st : SessionState) (line : String) (base_prompt : String)
    (save_err : Option String) (llm : LlmResult) : StepResult :=
  let input := rust_trim line
  if input = "" then
    { state := st, log := [], out := ["You: "], quit := false }
  else if starts_with_char input '/' then
    match st.handle_command input base_prompt save_err with
    | (st', CommandResult.Quit) =>
        { state := st', log := [], out := ["\nGoodbye!\n"], quit := true }
    | (st', CommandResult.Continue) =>
        { state := st', log := [], out := ["\nYou: "], quit := false }
    | (st', CommandResult.Message msg) =>
        { state := st', log := [], out := [msg, "\nYou: "], quit := false }
  else
    let display_name := st.user_name.getD "User"
    let st1 : SessionState := { st with messages := st.messages ++ [⟨"user", input⟩] }
    match llm with
    | LlmResult.ok response =>
        { state := { st1 with messages := st1.messages ++ [⟨"assistant", response⟩] },
          log := [(display_name, input), ("AI", response)],
          out := ["\nAI: (thinking...)\r", "AI: " ++ response ++ "\n", "\nYou: "],
          quit := false }
    | LlmResult.err e =>
        { state := st1,
          log := [(display_name, input)],
          out := ["\nAI: (thinking...)\r", "AI: Sorry, I encountered an error: " ++ e ++ "\n",
                  "\nYou: "],
          quit := false }

/-- One external interaction of a session trace: the received line and
the outcomes of the effects the step may perform. -/
structure Event where
  line : String
  save_err : Option String
  llm : LlmResult
deriving Repr, DecidableEq

/-- Run the `Session::run` loop over a list of received lines, stopping
at a quit command the way the loop breaks. -/
def run_session (base_prompt : String) (st : SessionState) : List Event → SessionState
  | [] => st
  | ev :: rest =>
      let r := session_step st ev.line base_prompt ev.save_err ev.llm
      if r.quit then r.state else run_session base_prompt r.state rest

/-! ### Session invariant -/

/-- The conversation invariant: the first turn is the system turn holding
the prompt as currently built (base prompt plus name augmentation for the
current `user_name`). -/
def SessionState.inv (st : SessionState) (base_prompt : String) : Prop :=
  st.messages.head? = some ⟨"system", build_system_prompt base_prompt st.user_name⟩

theorem inv_new (base_prompt : String) (user_name : Option String) :
    (SessionState.new base_prompt user_name).inv base_prompt := rfl

theorem inv_cons {st : SessionState} {base_prompt : String} (h : st.inv base_prompt) :
    ∃ rest, st.messages
      = ⟨"system", build_system_prompt base_prompt st.user_name⟩ :: rest := by
  unfold SessionState.inv at h
  cases hc : st.messages with
  | nil => rw [hc] at h; exact absurd h (by simp)
  | cons m rest =>
      rw [hc] at h
      simp only [List.head?_cons, Option.some.injEq] at h
      exact ⟨rest, by rw [h]⟩

theorem inv_update_user_name {st : SessionState} {base_prompt : String}
    (h : st.inv base_prompt) (name : String) :
    (st.update_user_name name base_prompt).inv base_prompt := by
  obtain ⟨rest, hmr⟩ := inv_cons h
  unfold SessionState.inv
  simp [SessionState.update_user_name, hmr]

theorem inv_handle_command {st : SessionState} {base_prompt : String}
    (h : st.inv base_prompt) (input : String) (save_err : Option String) :
    ((st.handle_command input base_prompt save_err).1).inv base_prompt := by
  simp only [SessionState.handle_command]
  split
  · exact h
  · split
    · split
      · split
        · exact inv_update_user_name h _
        · exact inv_update_user_name h _
      · exact h
    · split
      · obtain ⟨rest, hmr⟩ := inv_cons h
        unfold SessionState.inv
        simp [hmr]
      · split
        · exact h
        · exact h

theorem inv_session_step {st : SessionState} {base_prompt : String}
    (h : st.inv base_prompt) (line : String) (save_err : Option String)
    (llm : LlmResult) :
    ((session_step st line base_prompt save_err llm).state).inv base_prompt := by
  obtain ⟨rest, hmr⟩ := inv_cons h
  simp only [session_step]
  split
  · exact h
  · split
    · have h' := inv_handle_command h (rust_trim line) save_err
      cases hc : st.handle_command (rust_trim line) base_prompt save_err with
      | mk st' cr =>
          rw [hc] at h'
          cases cr <;> exact h'
    · unfold SessionState.inv at h ⊢
      cases llm <;> rw [hmr] at h ⊢ <;> simp

theorem inv_run_session {base_prompt : String} :
    ∀ (evs : List Event) (st : SessionState), st.inv base_prompt →
      (run_session base_prompt st evs).inv base_prompt := by
  intro evs
  induction evs with
  | nil => intro st h; exact h
  | cons ev rest ih =>
      intro st h
      simp only [run_session]
      split
      · exact inv_session_step h ev.line ev.save_err ev.llm
      · exact ih _ (inv_session_step h ev.line ev.save_err ev.llm)

/-- Reduction of `session_step` on `/clear`. -/
theorem session_step_clear (st : SessionState) (base_prompt : String)
    (save_err : Option String) (llm : LlmResult) :
    session_step st "/clear" base_prompt save_err llm
      = { state := { messages := st.messages.take 1, user_name := st.user_name },
          log := [], out := ["\nConversation cleared.\n", "\nYou: "], quit := false } := rfl

theorem parse_command_name (arg : String) :
    parse_command ("/name " ++ arg) = ("/name", some (rust_trim arg)) := by
  have hdata : ("/name " ++ arg).data = '/' :: 'n' :: 'a' :: 'm' :: 'e' :: ' ' :: arg.data := by
    rw [String.data_append]; rfl
  have hsplit : splitn2_space ("/name " ++ arg) = ("/name", some arg) := by
    unfold splitn2_space
    rw [hdata]
    show (match some (['/', 'n', 'a', 'm', 'e'], arg.data) with
      | none => ("/name " ++ arg, none)
      | some (a, b) => ((⟨a⟩ : String), some (⟨b⟩ : String))) = ("/name", some arg)
    rfl
  unfold parse_command
  rw [hsplit]
  show (to_lower "/name", Option.map rust_trim (some arg)) = _
  rw [show to_lower "/name" = "/name" from by decide]
  rfl

/-- Reduction of `SessionState::handle_command` on `/name <arg>`:
the state mutation happens whatever the persistence outcome is. -/
theorem handle_command_name (st : SessionState) (base_prompt arg : String)
    (save_err : Option String) :
    st.handle_command ("/name " ++ arg) base_prompt save_err
      = (st.update_user_name (rust_trim arg) base_prompt,
         match save_err with
         | some e => CommandResult.Message ("\nError saving name: " ++ e ++ "\n")
         | none => CommandResult.Message ("\nName set to: " ++ rust_trim arg ++ "\n")) := by
  simp only [SessionState.handle_command, parse_command_name]
  simp only [show ¬ (("/name" : String) = "/quit" ∨ ("/name" : String) = "/exit"
      ∨ ("/name" : String) = "/q") from by decide, if_false, if_true]
  cases save_err <;> simp

/-- Reduction of `session_step` on the chat path when the completion
call fails. -/
theorem session_step_chat_err (st : SessionState) (line base_prompt : String)
    (save_err : Option String) (e : String)
    (h1 : rust_trim line ≠ "") (h2 : starts_with_char (rust_trim line) '/' = false) :
    session_step st line base_prompt save_err (LlmResult.err e)
      = { state := { messages := st.messages ++ [⟨"user", rust_trim line⟩],
                     user_name := st.user_name },
          log := [(st.user_name.getD "User", rust_trim line)],
          out := ["\nAI: (thinking...)\r",
                  "AI: Sorry, I encountered an error: " ++ e ++ "\n", "\nYou: "],
          quit := false } := by
  simp only [session_step]
  rw [if_neg h1, if_neg (by simp [h2])]

/-- Reduction of `session_step` on the chat path when the completion
call succeeds. -/
theorem session_step_chat_ok (st : SessionState) (line base_prompt : String)
    (save_err : Option String) (r : String)
    (h1 : rust_trim line ≠ "") (h2 : starts_with_char (rust_trim line) '/' = false) :
    session_step st line base_prompt save_err (LlmResult.ok r)
      = { state := { messages := st.messages
                       ++ [⟨"user", rust_trim line⟩, ⟨"assistant", r⟩],
                     user_name := st.user_name },
          log := [(st.user_name.getD "User", rust_trim line), ("AI", r)],
          out := ["\nAI: (thinking...)\r", "AI: " ++ r ++ "\n", "\nYou: "],
          quit := false } := by
  simp only [session_step]
  rw [if_neg h1, if_neg (by simp [h2])]
  simp

/-- C8: in every reachable session state the conversation is non-empty
and index 0 holds the current system-prompt turn; no sequence of inputs
(chat turns, `/name`, `/clear`, other commands, with arbitrary
persistence and completion outcomes) empties it or displaces the system
turn. -/
theorem C8_system_turn_invariant (base_prompt : String) (user_name : Option String)
    (evs : List Event) :
    (run_session base_prompt (SessionState.new base_prompt user_name) evs).messages ≠ []
    ∧ (run_session base_prompt (SessionState.new base_prompt user_name) evs).messages.head?
        = some ⟨"system", build_system_prompt base_prompt
            (run_session base_prompt (SessionState.new base_prompt user_name) evs).user_name⟩ := by
  have h := inv_run_session evs _ (inv_new base_prompt user_name)
  obtain ⟨rest, hmr⟩ := inv_cons h
  exact ⟨by rw [hmr]; simp, h⟩

/-- C3: `/clear` reduces any conversation satisfying the session
invariant to exactly the one turn holding the most recently built system
prompt (name augmentation included); in particular `/name Alice` followed
by `/clear` retains the name-augmented system turn. -/
theorem C3_clear_keeps_current_system_prompt (base_prompt : String) (st : SessionState)
    (save_err : Option String) (llm : LlmResult)
    (hinv : st.inv base_prompt) :
    (session_step st "/clear" base_prompt save_err llm).state.messages
        = [⟨"system", build_system_prompt base_prompt st.user_name⟩]
    ∧ (run_session "p" (SessionState.new "p" none)
        [⟨"/name Alice", none, LlmResult.ok ""⟩, ⟨"/clear", none, LlmResult.ok ""⟩]).messages
        = [⟨"system", build_system_prompt "p" (some "Alice")⟩] := by
  constructor
  · obtain ⟨rest, hmr⟩ := inv_cons hinv
    rw [session_step_clear]
    simp [hmr]
  · decide

/-- Witness for C3 at a concrete state with a previously set name. -/
theorem C3_clear_keeps_current_system_prompt_witness :
    (session_step (SessionState.new "q" (some "Bob")) "/clear" "q" none
        (LlmResult.ok "r")).state.messages
      = [⟨"system", build_system_prompt "q" (some "Bob")⟩]
    ∧ (run_session "p" (SessionState.new "p" none)
        [⟨"/name Alice", none, LlmResult.ok ""⟩, ⟨"/clear", none, LlmResult.ok ""⟩]).messages
      = [⟨"system", build_system_prompt "p" (some "Alice")⟩] :=
  C3_clear_keeps_current_system_prompt "q" (SessionState.new "q" (some "Bob")) none
    (LlmResult.ok "r") rfl

/-- C1: when the completion call of the chat path fails, the session
emits an error line carrying the failure description, appends no
assistant turn (the conversation is exactly as it was at the moment of
the call: prior history plus the user turn), logs nothing for the failed
attempt (only the user line written before the call), and does not
quit. -/
theorem C1_chat_failure_leaves_state_and_log (st : SessionState)
    (line e base_prompt : String) (save_err : Option String)
    (h1 : rust_trim line ≠ "") (h2 : starts_with_char (rust_trim line) '/' = false) :
    (session_step st line base_prompt save_err (LlmResult.err e)).state.messages
        = st.messages ++ [⟨"user", rust_trim line⟩]
    ∧ (session_step st line base_prompt save_err (LlmResult.err e)).state.user_name
        = st.user_name
    ∧ (session_step st line base_prompt save_err (LlmResult.err e)).log
        = [(st.user_name.getD "User", rust_trim line)]
    ∧ ("AI: Sorry, I encountered an error: " ++ e ++ "\n")
        ∈ (session_step st line base_prompt save_err (LlmResult.err e)).out
    ∧ (session_step st line base_prompt save_err (LlmResult.err e)).quit = false := by
  rw [session_step_chat_err st line base_prompt save_err e h1 h2]
  simp

/-- Witness for C1 at a concrete state, input and failure. -/
theorem C1_chat_failure_leaves_state_and_log_witness :
    (session_step (SessionState.new "p" none) " hi " "p" none
        (LlmResult.err "boom")).state.messages
        = (SessionState.new "p" none).messages ++ [⟨"user", "hi"⟩]
    ∧ (session_step (SessionState.new "p" none) " hi " "p" none
        (LlmResult.err "boom")).state.user_name = none
    ∧ (session_step (SessionState.new "p" none) " hi " "p" none
        (LlmResult.err "boom")).log = [("User", "hi")]
    ∧ ("AI: Sorry, I encountered an error: boom\n")
        ∈ (session_step (SessionState.new "p" none) " hi " "p" none
            (LlmResult.err "boom")).out
    ∧ (session_step (SessionState.new "p" none) " hi " "p" none
        (LlmResult.err "boom")).quit = false :=
  C1_chat_failure_leaves_state_and_log (SessionState.new "p" none) " hi " "boom" "p" none
    (by decide) (by decide)

/-- C10: `/name` with a non-empty argument mutates the in-memory state
(user name and rebuilt system turn) before persistence is attempted, so
the new name and name-augmented prompt survive a failed save, which is
only reported as an error message. -/
theorem C10_name_mutation_precedes_persistence (st : SessionState)
    (base_prompt arg e : String) (save_err : Option String)
    (_harg : rust_trim arg ≠ "") (hm : st.messages ≠ []) :
    (st.handle_command ("/name " ++ arg) base_prompt save_err).1.user_name
        = some (rust_trim arg)
    ∧ ((st.handle_command ("/name " ++ arg) base_prompt save_err).1.messages.head?).map
          Message.content
        = some (build_system_prompt base_prompt (some (rust_trim arg)))
    ∧ (st.handle_command ("/name " ++ arg) base_prompt (some e)).2
        = CommandResult.Message ("\nError saving name: " ++ e ++ "\n") := by
  rw [handle_command_name st base_prompt arg save_err,
    handle_command_name st base_prompt arg (some e)]
  refine ⟨rfl, ?_, rfl⟩
  cases hc : st.messages with
  | nil => exact absurd hc hm
  | cons m rest => simp [SessionState.update_user_name, hc]

/-- Witness for C10: a failed save still leaves the name set. -/
theorem C10_name_mutation_precedes_persistence_witness :
    ((SessionState.new "p" none).handle_command ("/name " ++ "Alice") "p"
        (some "disk full")).1.user_name = some "Alice"
    ∧ (((SessionState.new "p" none).handle_command ("/name " ++ "Alice") "p"
        (some "disk full")).1.messages.head?).map Message.content
        = some (build_system_prompt "p" (some "Alice"))
    ∧ ((SessionState.new "p" none).handle_command ("/name " ++ "Alice") "p"
        (some "disk full")).2
        = CommandResult.Message ("\nError saving name: disk full\n") :=
  C10_name_mutation_precedes_persistence (SessionState.new "p" none) "p" "Alice"
    "disk full" (some "disk full") (by decide) (by decide)

/-- The event list of a chat-only trace: each input is answered
successfully by the completion service. -/
def chat_events (pairs : List (String × String)) : List Event :=
  pairs.map (fun p => ⟨p.1, none, LlmResult.ok p.2⟩)

/-- Shape of a successful chat-only trace: the conversation grows by one
user/assistant block per input, the name never changes. -/
theorem run_chat_shape (base_prompt : String) :
    ∀ (pairs : List (String × String)) (st : SessionState),
      (∀ p ∈ pairs, rust_trim p.1 ≠ "" ∧ starts_with_char (rust_trim p.1) '/' = false) →
      run_session base_prompt st (chat_events pairs)
        = { messages := st.messages
              ++ pairs.flatMap (fun p => [⟨"user", rust_trim p.1⟩, ⟨"assistant", p.2⟩]),
            user_name := st.user_name } := by
  intro pairs
  induction pairs with
  | nil => intro st h; simp [chat_events, run_session]
  | cons p rest ih =>
      intro st h
      obtain ⟨h1, h2⟩ := h p (by simp)
      simp only [chat_events, List.map_cons, run_session]
      rw [session_step_chat_ok st p.1 base_prompt none p.2 h1 h2]
      simp only [Bool.false_eq_true, if_false]
      rw [show (chat_events rest : List Event)
            = rest.map (fun p => ⟨p.1, none, LlmResult.ok p.2⟩) from rfl] at ih
      rw [ih _ (fun q hq => h q (List.mem_cons_of_mem p hq))]
      simp

theorem flatMap_pair_length {α β : Type} (f g : α → β) (l : List α) :
    (l.flatMap fun x => [f x, g x]).length = 2 * l.length := by
  induction l with
  | nil => simp
  | cons x xs ih => simp [ih]; ring

theorem flatMap_pair_getElem {α β : Type} (f g : α → β) :
    ∀ (l : List α) (i : Nat) (hi : i < l.length),
      (l.flatMap fun x => [f x, g x])[2 * i]? = some (f (l.get ⟨i, hi⟩))
      ∧ (l.flatMap fun x => [f x, g x])[2 * i + 1]? = some (g (l.get ⟨i, hi⟩)) := by
  intro l
  induction l with
  | nil => intro i hi; exact absurd hi (by simp)
  | cons x xs ih =>
      intro i hi
      cases i with
      | zero => simp
      | succ j =>
          have hj : j < xs.length := by simpa using hi
          have e2 : 2 * (j + 1) = 2 * j + 1 + 1 := by ring
          rw [e2]
          simpa using ih j hj

/-- C2: after N chat inputs each answered successfully, the conversation
holds exactly 1 + 2N turns: the system turn at index 0, then alternating
user/assistant turns starting at index 1. -/
theorem C2_chat_turns_alternate (base_prompt : String) (user_name : Option String)
    (pairs : List (String × String))
    (h : ∀ p ∈ pairs, rust_trim p.1 ≠ "" ∧ starts_with_char (rust_trim p.1) '/' = false) :
    (run_session base_prompt (SessionState.new base_prompt user_name)
        (chat_events pairs)).messages.length = 1 + 2 * pairs.length
    ∧ (run_session base_prompt (SessionState.new base_prompt user_name)
        (chat_events pairs)).messages[0]?
        = some ⟨"system", build_system_prompt base_prompt user_name⟩
    ∧ ∀ i, i < pairs.length →
        ((run_session base_prompt (SessionState.new base_prompt user_name)
            (chat_events pairs)).messages[1 + 2 * i]?).map Message.role = some "user"
        ∧ ((run_session base_prompt (SessionState.new base_prompt user_name)
            (chat_events pairs)).messages[2 + 2 * i]?).map Message.role = some "assistant" := by
  rw [run_chat_shape base_prompt pairs _ h]
  refine ⟨?_, ?_, ?_⟩
  · show ((⟨"system", build_system_prompt base_prompt user_name⟩ : Message)
        :: pairs.flatMap (fun p => [⟨"user", rust_trim p.1⟩, ⟨"assistant", p.2⟩])).length
      = 1 + 2 * pairs.length
    rw [List.length_cons, flatMap_pair_length]
    ring
  · simp [SessionState.new]
  · intro i hi
    have hget := flatMap_pair_getElem
      (fun p : String × String => (⟨"user", rust_trim p.1⟩ : Message))
      (fun p : String × String => (⟨"assistant", p.2⟩ : Message)) pairs i hi
    have hc : (SessionState.new base_prompt user_name).messages
          ++ pairs.flatMap (fun p => [⟨"user", rust_trim p.1⟩, ⟨"assistant", p.2⟩])
        = (⟨"system", build_system_prompt base_prompt user_name⟩ : Message)
          :: pairs.flatMap (fun p => [⟨"user", rust_trim p.1⟩, ⟨"assistant", p.2⟩]) := rfl
    constructor
    · rw [show 1 + 2 * i = 2 * i + 1 from by ring]
      simp only [hc, List.getElem?_cons_succ]
      rw [hget.1]
      rfl
    · rw [show 2 + 2 * i = (2 * i + 1) + 1 from by ring]
      simp only [hc, List.getElem?_cons_succ]
      rw [hget.2]
      rfl

/-- Witness for C2 on one concrete successful chat turn. -/
theorem C2_chat_turns_alternate_witness :
    (run_session "p" (SessionState.new "p" none)
        (chat_events [("hi", "yo")])).messages.length = 1 + 2 * 1
    ∧ (run_session "p" (SessionState.new "p" none)
        (chat_events [("hi", "yo")])).messages[0]?
        = some ⟨"system", build_system_prompt "p" none⟩
    ∧ ∀ i, i < [("hi", "yo")].length →
        ((run_session "p" (SessionState.new "p" none)
            (chat_events [("hi", "yo")])).messages[1 + 2 * i]?).map Message.role = some "user"
        ∧ ((run_session "p" (SessionState.new "p" none)
            (chat_events [("hi", "yo")])).messages[2 + 2 * i]?).map Message.role
            = some "assistant" :=
  C2_chat_turns_alternate "p" none [("hi", "yo")] (by decide)

/-- Characterization of `split_first`: the piece before the first `c`
and the piece after it, when `c` occurs at all. -/
theorem split_first_spec (c : Char) : ∀ l : List Char,
    split_first c l
      = if c ∈ l
        then some (l.takeWhile (fun y => y != c), (l.dropWhile (fun y => y != c)).tail)
        else none := by
  intro l
  induction l with
  | nil => simp [split_first]
  | cons x xs ih =>
      simp only [split_first]
      by_cases hx : x = c
      · subst hx
        simp [List.takeWhile_cons, List.dropWhile_cons]
      · rw [if_neg hx, ih]
        by_cases hm : c ∈ xs
        · rw [if_pos hm, if_pos (by simp [hm])]
          simp [List.takeWhile_cons, List.dropWhile_cons, hx,
            List.dropWhile_cons_of_pos]
        · rw [if_neg hm, if_neg (by simp [hm, Ne.symm hx])]

/-- Modelled from the spec: "the command token is the first
whitespace-delimited token, matched case-insensitively" — the lowercased
prefix of the input before the first whitespace character. Kept for
comparison with the token `handle_command` actually dispatches on. -/
def claimed_command_token (input : String) : String :=
  to_lower ⟨input.data.takeWhile (fun ch => !ch.isWhitespace)⟩

/-- C4 counterexample: on `"/help\tx"` (an interior tab) the claimed
first whitespace-delimited token is `/help`, but the code splits only at
the first space, dispatches on `"/help\tx"`, and answers with
`Unknown command` instead of the help text. -/
theorem C4_counterexample_tab_is_not_a_delimiter :
    claimed_command_token "/help\tx" = "/help"
    ∧ (parse_command "/help\tx").1 ≠ claimed_command_token "/help\tx"
    ∧ ((SessionState.new "p" none).handle_command "/help\tx" "p" none).2
        = CommandResult.Message ("\nUnknown command: /help\tx\n") := by decide

/-- C4 amended: the command token is the (lowercased) part of the input
before the first space character — not before arbitrary whitespace — the
argument is the trimmed remainder after that first space (absent when the
input has no space), and the dispatch on the token is case-insensitive. -/
theorem C4_amended_split_at_first_space (input : String) :
    (parse_command input).1
      = to_lower ⟨input.data.takeWhile (fun ch => ch != ' ')⟩
    ∧ (parse_command input).2
      = (if ' ' ∈ input.data
          then some (rust_trim ⟨(input.data.dropWhile (fun ch => ch != ' ')).tail⟩)
          else none)
    ∧ ∀ (st : SessionState) (base_prompt : String) (se : Option String),
        st.handle_command "/CLEAR" base_prompt se
          = st.handle_command "/clear" base_prompt se := by
  refine ⟨?_, ?_, ?_⟩
  · simp only [parse_command, splitn2_space, split_first_spec]
    by_cases hm : ' ' ∈ input.data
    · simp [hm]
    · have : input.data.takeWhile (fun ch => ch != ' ') = input.data := by
        rw [List.takeWhile_eq_self_iff]
        intro a ha
        simp [ne_of_mem_of_not_mem ha hm]
      simp [hm, this]
  · simp only [parse_command, splitn2_space, split_first_spec]
    by_cases hm : ' ' ∈ input.data
    · simp [hm]
    · simp [hm]
  · intro st base_prompt se
    rfl

/-! ### Conversation log and summary record (`src/logger.rs`)

The summary file is modelled as the `String` it contains (`""` plays the
role of a missing file, matching `read_to_string(...).unwrap_or_default()`).
String surgery is carried out on the underlying character lists, mirroring
the `char`-level semantics of the Rust `str` operations used. -/

/-- Split a character list at every occurrence of `c`
(terminator-free splitting, as `str::split`): always non-empty. -/
def split_list (c : Char) : List Char → List (List Char)
  | [] => [[]]
  | x :: xs =>
      if x = c then [] :: split_list c xs
      else
        match split_list c xs with
        | [] => [[x]]
        | y :: ys => (x :: y) :: ys

/-- Drop one trailing carriage return, as Rust `str::lines` does per line. -/
def strip_cr (l : List Char) : List Char :=
  if l.getLast? = some '\r' then l.dropLast else l

/-- Drop the empty trailing piece a final newline produces, as Rust
`str::lines` does. -/
def drop_final_empty (parts : List (List Char)) : List (List Char) :=
  if parts.getLast? = some ([] : List Char) then parts.dropLast else parts

/-- Rust `str::lines`: split on newlines, drop the empty piece a trailing
newline produces, strip one trailing `\r` from each line. -/
def lines_cl (s : List Char) : List (List Char) :=
  ((drop_final_empty (split_list '\n' s)).map strip_cr)

/-- Rust `str::lines` lifted to `String`. -/
def rust_lines (s : String) : List String :=
  (lines_cl s.data).map (fun l => (⟨l⟩ : String))

/-- Split a character list at the first occurrence of the two-character
separator `a :: b` (Rust `str::splitn(2, sep)` for a two-char `sep`):
`none` when the separator does not occur. -/
def split_first2 (a b : Char) : List Char → Option (List Char × List Char)
  | [] => none
  | [_] => none
  | x :: y :: rest =>
      if x = a ∧ y = b then some ([], rest)
      else
        match split_first2 a b (y :: rest) with
        | none => none
        | some (p, q) => some (x :: p, q)

/-- Whether the two-character separator `a :: b` occurs in a list. -/
def has2 (a b : Char) : List Char → Bool
  | [] => false
  | [_] => false
  | x :: y :: rest => (x = a && y = b) || has2 a b (y :: rest)

/-- One line of the summary file, parsed by `line.splitn(2, ": ")`:
`some (key, value)` when the line contains `": "`, dropped otherwise. -/
def parse_summary_line (l : List Char) : Option (String × String) :=
  (split_first2 ':' ' ' l).map (fun pq => ((⟨pq.1⟩ : String), (⟨pq.2⟩ : String)))

/-- The summary mapping read out of the summary file's contents
(the parsing loop shared by `update_summary` and `touch_last_seen`). -/
def parse_summary (file : String) : List (String × String) :=
  (lines_cl file.data).filterMap parse_summary_line

/-- The line `key ++ ": " ++ value` a summary entry is written as. -/
def summary_line (e : String × String) : String :=
  e.1 ++ ": " ++ e.2

/-- Join lines with newlines (Rust `Vec::join("\n")`). -/
def join_lines : List (List Char) → List Char
  | [] => []
  | [l] => l
  | l :: ls => l ++ '\n' :: join_lines ls

/-- The full summary file contents written back:
entries joined by newlines, plus a final newline (`content + "\n"`). -/
def serialize_entries (es : List (String × String)) : String :=
  ⟨join_lines (es.map (fun e => (summary_line e).data)) ++ ['\n']⟩

/-- Replace the value of the first entry whose key satisfies `p`;
`none` when no key does (the `iter_mut().find(...)` pattern). -/
def update_first (v : String) (p : String → Bool) :
    List (String × String) → Option (List (String × String))
  | [] => none
  | (k, w) :: rest =>
      if p k then some ((k, v) :: rest)
      else (update_first v p rest).map (fun l => (k, w) :: l)

/-- Update the first entry whose key satisfies `p`, or push `(key, value)`
at the end (the update-or-push pattern of `update_summary` and
`touch_last_seen`). -/
def upsert_entry (es : List (String × String)) (p : String → Bool)
    (key value : String) : List (String × String) :=
  match update_first value p es with
  | some es' => es'
  | none => es ++ [(key, value)]

/-- The entry transformation inside `ChatLogger::update_summary`:
update-or-push the given key (matched case-insensitively), then
update-or-push `last_seen` (matched exactly) with the current timestamp. -/
def update_summary_entries (entries : List (String × String))
    (key value now : String) : List (String × String) :=
  let entries1 := upsert_entry entries (fun k => to_lower k == to_lower key) key value
  upsert_entry entries1 (fun k => k == "last_seen") "last_seen" now

/-- The entry transformation inside `ChatLogger::touch_last_seen`:
update-or-push `last_seen` (matched exactly) with the current timestamp. -/
def touch_last_seen_entries (entries : List (String × String))
    (now : String) : List (String × String) :=
  upsert_entry entries (fun k => k == "last_seen") "last_seen" now

/-- `ChatLogger::update_summary`: read the summary file, transform the
parsed entries, write the file back whole. The current timestamp is the
`now` parameter. -/
def update_summary (file key value now : String) : String :=
  serialize_entries (update_summary_entries (parse_summary file) key value now)

/-- `ChatLogger::touch_last_seen`: read the summary file, refresh
`last_seen` in the parsed entries, write the file back whole. -/
def touch_last_seen (file now : String) : String :=
  serialize_entries (touch_last_seen_entries (parse_summary file) now)

/-! ### Lemmas about the update-or-push pattern -/

theorem update_first_eq_none {v : String} {p : String → Bool} :
    ∀ {es : List (String × String)}, (∀ e ∈ es, p e.1 = false) →
      update_first v p es = none := by
  intro es
  induction es with
  | nil => intro _; rfl
  | cons e rest ih =>
      intro h
      simp only [update_first]
      rw [if_neg (by simp [h e (by simp)]), ih (fun e' he' => h e' (by simp [he']))]
      rfl

theorem update_first_none_forall {v : String} {p : String → Bool} :
    ∀ {es : List (String × String)}, update_first v p es = none →
      ∀ e ∈ es, p e.1 = false := by
  intro es
  induction es with
  | nil => intro _ e he; exact absurd he (by simp)
  | cons e rest ih =>
      intro h e' he'
      simp only [update_first] at h
      by_cases hp : p e.1
      · rw [if_pos hp] at h; exact absurd h (by simp)
      · rw [if_neg hp] at h
        rcases List.mem_cons.mp he' with rfl | hmem
        · simpa using hp
        · cases hrec : update_first v p rest with
          | none => exact ih hrec e' hmem
          | some l => rw [hrec] at h; exact absurd h (by simp)

theorem update_first_some {v : String} {p : String → Bool} :
    ∀ {es es' : List (String × String)}, update_first v p es = some es' →
      ∃ pre k0 v0 post, es = pre ++ (k0, v0) :: post
        ∧ (∀ e ∈ pre, p e.1 = false) ∧ p k0 = true
        ∧ es' = pre ++ (k0, v) :: post := by
  intro es
  induction es with
  | nil => intro es' h; exact absurd h (by simp [update_first])
  | cons e rest ih =>
      intro es' h
      simp only [update_first] at h
      by_cases hp : p e.1
      · rw [if_pos hp] at h
        refine ⟨[], e.1, e.2, rest, by simp, by simp, hp, ?_⟩
        simpa using h.symm
      · rw [if_neg hp] at h
        cases hrec : update_first v p rest with
        | none => rw [hrec] at h; exact absurd h (by simp)
        | some l =>
            rw [hrec] at h
            obtain ⟨pre, k0, v0, post, h1, h2, h3, h4⟩ := ih hrec
            refine ⟨e :: pre, k0, v0, post, by simp [h1], ?_, h3, ?_⟩
            · intro e' he'
              rcases List.mem_cons.mp he' with rfl | hmem
              · simpa using hp
              · exact h2 e' hmem
            · simp only [Option.map] at h
              simp only [Option.some.injEq] at h
              simp [← h, h4]

theorem update_first_append {v : String} {p : String → Bool} :
    ∀ (pre : List (String × String)) (k0 v0 : String)
      (post : List (String × String)),
      (∀ e ∈ pre, p e.1 = false) → p k0 = true →
      update_first v p (pre ++ (k0, v0) :: post) = some (pre ++ (k0, v) :: post) := by
  intro pre
  induction pre with
  | nil => intro k0 v0 post _ hk; simp [update_first, hk]
  | cons e pre' ih =>
      intro k0 v0 post hpre hk
      simp only [List.cons_append, update_first, List.append_eq]
      rw [if_neg (by simp [hpre e (by simp)]),
        ih k0 v0 post (fun e' he' => hpre e' (by simp [he'])) hk]
      rfl

theorem upsert_entry_of_no_match {es : List (String × String)} {p : String → Bool}
    {key value : String} (h : ∀ e ∈ es, p e.1 = false) :
    upsert_entry es p key value = es ++ [(key, value)] := by
  unfold upsert_entry
  rw [update_first_eq_none h]

theorem upsert_entry_of_match {p : String → Bool} {value : String}
    (pre : List (String × String)) (k0 v0 : String)
    (post : List (String × String)) (key : String)
    (hpre : ∀ e ∈ pre, p e.1 = false) (hk : p k0 = true) :
    upsert_entry (pre ++ (k0, v0) :: post) p key value
      = pre ++ (k0, value) :: post := by
  unfold upsert_entry
  rw [update_first_append pre k0 v0 post hpre hk]

/-- After refreshing `last_seen`, the first `last_seen` entry holds the
new timestamp. -/
theorem find_last_seen_touch (es : List (String × String)) (now : String) :
    (touch_last_seen_entries es now).find? (fun e => e.1 == "last_seen")
      = some ("last_seen", now) := by
  unfold touch_last_seen_entries upsert_entry
  cases hu : update_first now (fun k => k == "last_seen") es with
  | none =>
      have hall := update_first_none_forall hu
      rw [List.find?_append]
      have h1 : es.find? (fun e => e.1 == "last_seen") = none := by
        rw [List.find?_eq_none]
        intro e he
        simp [hall e he]
      rw [h1]
      simp
  | some es' =>
      obtain ⟨pre, k0, v0, post, _h1, h2, h3, h4⟩ := update_first_some hu
      have hk0 : k0 = "last_seen" := by simpa using h3
      subst hk0 h4
      rw [List.find?_append]
      have h1 : pre.find? (fun e => e.1 == "last_seen") = none := by
        rw [List.find?_eq_none]
        intro e he
        simp [h2 e he]
      rw [h1]
      simp

theorem update_summary_entries_eq_touch (es : List (String × String))
    (key value now : String) :
    update_summary_entries es key value now
      = touch_last_seen_entries
          (upsert_entry es (fun k => to_lower k == to_lower key) key value) now := rfl

/-- C6: `update_summary` matches an existing entry case-insensitively on
the key and preserves the stored key's casing on update; the given
casing is stored only on first insertion; and `last_seen` is refreshed
to the current timestamp on every call. -/
theorem C6_upsert_case_insensitive_and_refreshes (entries : List (String × String))
    (key value now : String) :
    (∀ pre k0 v0 post, entries = pre ++ (k0, v0) :: post →
        (∀ e ∈ pre, to_lower e.1 ≠ to_lower key) → to_lower k0 = to_lower key →
        update_summary_entries entries key value now
          = touch_last_seen_entries (pre ++ (k0, value) :: post) now)
    ∧ ((∀ e ∈ entries, to_lower e.1 ≠ to_lower key) →
        update_summary_entries entries key value now
          = touch_last_seen_entries (entries ++ [(key, value)]) now)
    ∧ (update_summary_entries entries key value now).find? (fun e => e.1 == "last_seen")
        = some ("last_seen", now) := by
  refine ⟨?_, ?_, ?_⟩
  · intro pre k0 v0 post hdec hpre hk0
    rw [update_summary_entries_eq_touch, hdec,
      upsert_entry_of_match pre k0 v0 post key
        (fun e he => by simp [hpre e he]) (by simp [hk0])]
  · intro hall
    rw [update_summary_entries_eq_touch,
      upsert_entry_of_no_match (fun e he => by simp [hall e he])]
  · rw [update_summary_entries_eq_touch]
    exact find_last_seen_touch _ now

/-- Witness for C6: a case-insensitive match updates the value while
keeping the stored casing, and `last_seen` is refreshed. -/
theorem C6_upsert_case_insensitive_witness :
    update_summary_entries [("Name", "x")] "nAme" "Bob" "T"
        = touch_last_seen_entries [("Name", "Bob")] "T"
    ∧ update_summary_entries [("city", "Oslo")] "Name" "Bob" "T"
        = touch_last_seen_entries [("city", "Oslo"), ("Name", "Bob")] "T"
    ∧ (update_summary_entries [("Name", "x")] "nAme" "Bob" "T").find?
        (fun e => e.1 == "last_seen") = some ("last_seen", "T") :=
  ⟨(C6_upsert_case_insensitive_and_refreshes [("Name", "x")] "nAme" "Bob" "T").1
      [] "Name" "x" [] rfl (by simp) (by decide),
   (C6_upsert_case_insensitive_and_refreshes [("city", "Oslo")] "Name" "Bob" "T").2.1
      (by decide),
   (C6_upsert_case_insensitive_and_refreshes [("Name", "x")] "nAme" "Bob" "T").2.2⟩

/-- The keys after an update-or-push: unchanged on update, the pushed
key appended on first insertion. -/
theorem upsert_entry_keys {es : List (String × String)} {p : String → Bool}
    {key value : String} :
    (upsert_entry es p key value).map Prod.fst = es.map Prod.fst
    ∨ (upsert_entry es p key value).map Prod.fst = es.map Prod.fst ++ [key] := by
  unfold upsert_entry
  cases hu : update_first value p es with
  | none => right; simp
  | some es' =>
      left
      obtain ⟨pre, k0, v0, post, h1, _, _, h4⟩ := update_first_some hu
      subst h1 h4
      simp

/-- Refreshing `last_seen` leaves every other entry untouched and grows
the entry list by at most the first-time `last_seen` insertion. -/
theorem touch_entries_frame (es : List (String × String)) (now : String) :
    (touch_last_seen_entries es now).filter (fun e => e.1 != "last_seen")
        = es.filter (fun e => e.1 != "last_seen")
    ∧ ((touch_last_seen_entries es now).map Prod.fst = es.map Prod.fst
        ∨ (touch_last_seen_entries es now).map Prod.fst
            = es.map Prod.fst ++ ["last_seen"])
    ∧ (touch_last_seen_entries es now).length ≤ es.length + 1 := by
  unfold touch_last_seen_entries
  refine ⟨?_, upsert_entry_keys, ?_⟩
  · unfold upsert_entry
    cases hu : update_first now (fun k => k == "last_seen") es with
    | none => simp
    | some es' =>
        obtain ⟨pre, k0, v0, post, h1, h2, h3, h4⟩ := update_first_some hu
        have hk0 : k0 = "last_seen" := by simpa using h3
        subst hk0 h1 h4
        simp [List.filter_append]
  · unfold upsert_entry
    cases hu : update_first now (fun k => k == "last_seen") es with
    | none => simp
    | some es' =>
        obtain ⟨pre, k0, v0, post, h1, _, _, h4⟩ := update_first_some hu
        subst h1 h4
        simp

/-! ### Serialization round trip for the summary file -/

/-- Well-formedness of a summary key: one line, free of the `": "`
separator — exactly what `parse_summary` guarantees for parsed keys. -/
abbrev wf_key (k : String) : Prop := '\n' ∉ k.data ∧ has2 ':' ' ' k.data = false

/-- Well-formedness of a summary value: one line, not ending in a
carriage return (which `str::lines` would strip on re-reading). -/
abbrev wf_val (vl : String) : Prop := '\n' ∉ vl.data ∧ vl.data.getLast? ≠ some '\r'

/-- Well-formedness of a summary entry. -/
abbrev wf_entry (e : String × String) : Prop := wf_key e.1 ∧ wf_val e.2

theorem split_list_append {c : Char} :
    ∀ (l rest : List Char), c ∉ l →
      split_list c (l ++ c :: rest) = l :: split_list c rest := by
  intro l
  induction l with
  | nil => intro rest _; simp [split_list]
  | cons x xs ih =>
      intro rest h
      simp only [List.cons_append, split_list, List.append_eq]
      rw [if_neg (by intro hx; exact h (by simp [hx])),
        ih rest (fun hx => h (by simp [hx]))]

theorem split_join :
    ∀ (ls : List (List Char)), ls ≠ [] → (∀ l ∈ ls, '\n' ∉ l) →
      split_list '\n' (join_lines ls ++ ['\n']) = ls ++ [[]] := by
  intro ls
  induction ls with
  | nil => intro h _; exact absurd rfl h
  | cons l ls' ih =>
      intro _ hmem
      cases ls' with
      | nil =>
          simp only [join_lines]
          rw [show l ++ ['\n'] = l ++ '\n' :: [] from rfl,
            split_list_append l [] (hmem l (by simp))]
          rfl
      | cons l2 ls'' =>
          simp only [join_lines]
          rw [List.append_assoc, List.cons_append,
            split_list_append l _ (hmem l (by simp)),
            ih (by simp) (fun l' hl' => hmem l' (by simp [hl']))]
          rfl

theorem strip_cr_eq {l : List Char} (h : l.getLast? ≠ some '\r') :
    strip_cr l = l := by
  unfold strip_cr
  rw [if_neg h]

theorem summary_line_data (e : String × String) :
    (summary_line e).data = e.1.data ++ ':' :: ' ' :: e.2.data := by
  unfold summary_line
  rw [String.data_append, String.data_append, List.append_assoc]
  rfl

theorem summary_line_no_newline {e : String × String} (h : wf_entry e) :
    '\n' ∉ (summary_line e).data := by
  rw [summary_line_data]
  intro hmem
  rcases List.mem_append.mp hmem with h1 | h2
  · exact h.1.1 h1
  · rcases List.mem_cons.mp h2 with h3 | h4
    · exact absurd h3 (by decide)
    · rcases List.mem_cons.mp h4 with h5 | h6
      · exact absurd h5 (by decide)
      · exact h.2.1 h6

theorem getLast_append_ne_nil {l1 l2 : List Char} (h : l2 ≠ []) :
    (l1 ++ l2).getLast? = l2.getLast? := by
  rw [List.getLast?_append]
  cases hc : l2.getLast? with
  | none => exact absurd (List.getLast?_eq_none_iff.mp hc) h
  | some a => rfl

theorem summary_line_getLast {e : String × String} (h : wf_entry e) :
    (summary_line e).data.getLast? ≠ some '\r' := by
  rw [summary_line_data]
  cases hv : e.2.data with
  | nil =>
      rw [show e.1.data ++ ':' :: ' ' :: ([] : List Char)
          = (e.1.data ++ [':']) ++ [' '] from by simp]
      rw [List.getLast?_concat]
      simp
  | cons c cs =>
      rw [show e.1.data ++ ':' :: ' ' :: (c :: cs)
          = (e.1.data ++ [':', ' ']) ++ (c :: cs) from by simp]
      rw [getLast_append_ne_nil (by simp)]
      rw [← hv]
      exact h.2.2

theorem lines_serialize (es : List (String × String)) (hne : es ≠ [])
    (hwf : ∀ e ∈ es, wf_entry e) :
    lines_cl (serialize_entries es).data
      = es.map (fun e => (summary_line e).data) := by
  have hdata : (serialize_entries es).data
      = join_lines (es.map (fun e => (summary_line e).data)) ++ ['\n'] := rfl
  unfold lines_cl
  rw [hdata, split_join _ (by simpa using hne)
    (fun l hl => by
      obtain ⟨e, he, hle⟩ := List.mem_map.mp hl
      rw [← hle]
      exact summary_line_no_newline (hwf e he))]
  unfold drop_final_empty
  rw [List.getLast?_concat, if_pos rfl, List.dropLast_concat, List.map_map]
  exact List.map_congr_left
    (fun e he => strip_cr_eq (summary_line_getLast (hwf e he)))

theorem split_first2_append {a b : Char} (hab : a ≠ b) (v : List Char) :
    ∀ k, has2 a b k = false → split_first2 a b (k ++ a :: b :: v) = some (k, v) := by
  intro k
  induction k with
  | nil => intro _; simp [split_first2]
  | cons x k' ih =>
      intro h
      cases k' with
      | nil =>
          simp only [List.cons_append, List.nil_append, split_first2]
          rw [if_neg (by rintro ⟨rfl, rfl⟩; exact hab rfl)]
          simp
      | cons y k'' =>
          have hx : (decide (x = a) && decide (y = b)) = false := by
            have := h
            simp only [has2, Bool.or_eq_false_iff] at this
            exact this.1
          have h2 : has2 a b (y :: k'') = false := by
            have := h
            simp only [has2, Bool.or_eq_false_iff] at this
            exact this.2
          simp only [List.cons_append, split_first2]
          rw [if_neg (by
            rintro ⟨rfl, rfl⟩
            simp at hx)]
          simp only [List.append_eq]
          simp only [List.cons_append] at ih
          rw [ih h2]

theorem split_first2_some {a b : Char} :
    ∀ {l p q : List Char}, split_first2 a b l = some (p, q) →
      l = p ++ a :: b :: q ∧ has2 a b p = false := by
  intro l
  induction l with
  | nil => intro p q h; exact absurd h (by simp [split_first2])
  | cons x xs ih =>
      intro p q h
      cases xs with
      | nil => exact absurd h (by simp [split_first2])
      | cons y rest =>
          simp only [split_first2] at h
          by_cases hxy : x = a ∧ y = b
          · rw [if_pos hxy] at h
            simp only [Option.some.injEq, Prod.mk.injEq] at h
            obtain ⟨rfl, rfl⟩ := h
            simp [hxy.1, hxy.2, has2]
          · rw [if_neg hxy] at h
            cases hrec : split_first2 a b (y :: rest) with
            | none => rw [hrec] at h; exact absurd h (by simp)
            | some pq =>
                rw [hrec] at h
                simp only [Option.some.injEq] at h
                obtain ⟨hl, hh⟩ := ih hrec
                cases pq with
                | mk p' q' =>
                    simp only [Prod.mk.injEq] at h ⊢
                    obtain ⟨hp, hq⟩ := h
                    constructor
                    · rw [← hp, ← hq]
                      simp [hl]
                    · rw [← hp]
                      cases p' with
                      | nil => simp [has2]
                      | cons z p'' =>
                          have hz : z = y := by
                            have := hl
                            simp only [List.cons_append] at this
                            exact (List.cons.injEq .. ▸ this).1.symm ▸ rfl
                          simp only [has2, Bool.or_eq_false_iff]
                          constructor
                          · subst hz
                            simp only [Bool.and_eq_false_iff]
                            by_cases hxa : x = a
                            · right
                              simp only [decide_eq_false_iff_not]
                              intro hyb
                              exact hxy ⟨hxa, hyb⟩
                            · left
                              simp [hxa]
                          · exact hh

theorem parse_line_of_summary_line {e : String × String}
    (h : has2 ':' ' ' e.1.data = false) :
    parse_summary_line ((summary_line e).data) = some e := by
  unfold parse_summary_line
  rw [summary_line_data, split_first2_append (by decide) _ _ h]
  rfl

theorem filterMap_parse_line (es : List (String × String))
    (hwf : ∀ e ∈ es, has2 ':' ' ' e.1.data = false) :
    (es.map (fun e => (summary_line e).data)).filterMap parse_summary_line = es := by
  induction es with
  | nil => rfl
  | cons e rest ih =>
      simp only [List.map_cons, List.filterMap_cons,
        parse_line_of_summary_line (hwf e (by simp))]
      rw [ih (fun e' he' => hwf e' (by simp [he']))]

/-- Writing entries and reading them back is the identity, for non-empty
lists of well-formed entries. -/
theorem parse_serialize_entries (es : List (String × String)) (hne : es ≠ [])
    (hwf : ∀ e ∈ es, wf_entry e) :
    parse_summary (serialize_entries es) = es := by
  unfold parse_summary
  rw [lines_serialize es hne hwf]
  exact filterMap_parse_line es (fun e he => (hwf e he).1.2)

/-! ### What `parse_summary` guarantees about its output -/

theorem split_list_chars {c : Char} :
    ∀ (s : List Char) (l : List Char), l ∈ split_list c s → ∀ x ∈ l, x ∈ s := by
  intro s
  induction s with
  | nil =>
      intro l hl x hx
      simp only [split_list, List.mem_singleton] at hl
      subst hl
      exact absurd hx (by simp)
  | cons y ys ih =>
      intro l hl x hx
      simp only [split_list] at hl
      by_cases hy : y = c
      · rw [if_pos hy] at hl
        rcases List.mem_cons.mp hl with rfl | hmem
        · exact absurd hx (by simp)
        · exact List.mem_cons_of_mem _ (ih l hmem x hx)
      · rw [if_neg hy] at hl
        cases hrec : split_list c ys with
        | nil =>
            rw [hrec] at hl
            simp only [List.mem_singleton] at hl
            subst hl
            simp only [List.mem_singleton] at hx
            simp [hx]
        | cons z zs =>
            rw [hrec] at hl
            rcases List.mem_cons.mp hl with rfl | hmem
            · rcases List.mem_cons.mp hx with rfl | hxz
              · simp
              · exact List.mem_cons_of_mem _ (ih z (by rw [hrec]; simp) x hxz)
            · exact List.mem_cons_of_mem _ (ih l (by rw [hrec]; simp [hmem]) x hx)

theorem split_list_no_sep {c : Char} :
    ∀ (s : List Char) (l : List Char), l ∈ split_list c s → c ∉ l := by
  intro s
  induction s with
  | nil =>
      intro l hl
      simp only [split_list, List.mem_singleton] at hl
      subst hl
      simp
  | cons y ys ih =>
      intro l hl
      simp only [split_list] at hl
      by_cases hy : y = c
      · rw [if_pos hy] at hl
        rcases List.mem_cons.mp hl with rfl | hmem
        · simp
        · exact ih l hmem
      · rw [if_neg hy] at hl
        cases hrec : split_list c ys with
        | nil =>
            rw [hrec] at hl
            simp only [List.mem_singleton] at hl
            subst hl
            simp [Ne.symm hy]
        | cons z zs =>
            rw [hrec] at hl
            rcases List.mem_cons.mp hl with rfl | hmem
            · intro hcm
              rcases List.mem_cons.mp hcm with hcy | hcz
              · exact hy hcy.symm
              · exact ih z (by rw [hrec]; simp) hcz
            · exact ih l (by rw [hrec]; simp [hmem])

theorem lines_cl_mem {s l : List Char} (hl : l ∈ lines_cl s) :
    (∀ x ∈ l, x ∈ s) ∧ '\n' ∉ l := by
  unfold lines_cl at hl
  obtain ⟨l0, hl0, rfl⟩ := List.mem_map.mp hl
  have hl0' : l0 ∈ split_list '\n' s := by
    unfold drop_final_empty at hl0
    by_cases hif : (split_list '\n' s).getLast? = some ([] : List Char)
    · rw [if_pos hif] at hl0
      exact (List.dropLast_sublist _).mem hl0
    · rw [if_neg hif] at hl0
      exact hl0
  have hsub : ∀ x ∈ strip_cr l0, x ∈ l0 := by
    unfold strip_cr
    by_cases hif : l0.getLast? = some '\r'
    · rw [if_pos hif]
      intro x hx
      exact (List.dropLast_sublist _).mem hx
    · rw [if_neg hif]
      intro x hx
      exact hx
  exact ⟨fun x hx => split_list_chars s l0 hl0' x (hsub x hx),
    fun hx => split_list_no_sep s l0 hl0' (hsub _ hx)⟩

/-- Entries read back from any summary file are well-formed, provided the
file carries no carriage returns. -/
theorem parse_summary_wf (file : String) (hr : '\r' ∉ file.data) :
    ∀ e ∈ parse_summary file, wf_entry e := by
  intro e he
  unfold parse_summary at he
  obtain ⟨l, hl, hparse⟩ := List.mem_filterMap.mp he
  obtain ⟨hsub, hnl⟩ := lines_cl_mem hl
  unfold parse_summary_line at hparse
  cases hsp : split_first2 ':' ' ' l with
  | none => rw [hsp] at hparse; exact absurd hparse (by simp)
  | some pq =>
      rw [hsp] at hparse
      cases pq with
      | mk pp qq =>
          simp only [Option.map, Option.some.injEq] at hparse
          obtain ⟨hl_eq, hhas⟩ := split_first2_some hsp
          subst hparse
          refine ⟨⟨?_, hhas⟩, ?_, ?_⟩
          · intro hx
            exact hnl (by rw [hl_eq]; simp [hx])
          · intro hx
            exact hnl (by rw [hl_eq]; simp [hx])
          · intro hlast
            have hq : '\r' ∈ qq :=
              List.mem_of_mem_getLast? (Option.mem_def.mpr hlast)
            have hll : '\r' ∈ l := by rw [hl_eq]; simp [hq]
            exact hr (hsub _ hll)

theorem upsert_entry_wf {es : List (String × String)} {p : String → Bool}
    {key value : String} (hes : ∀ e ∈ es, wf_entry e)
    (hkv : wf_entry (key, value)) :
    ∀ e ∈ upsert_entry es p key value, wf_entry e := by
  intro e he
  unfold upsert_entry at he
  cases hu : update_first value p es with
  | none =>
      rw [hu] at he
      rcases List.mem_append.mp he with h1 | h2
      · exact hes e h1
      · simp only [List.mem_singleton] at h2
        subst h2
        exact hkv
  | some es' =>
      rw [hu] at he
      obtain ⟨pre, k0, v0, post, hd, _, _, h4⟩ := update_first_some hu
      subst hd h4
      rcases List.mem_append.mp he with h1 | h2
      · exact hes e (by simp [h1])
      · rcases List.mem_cons.mp h2 with rfl | h3
        · exact ⟨(hes (k0, v0) (by simp)).1, hkv.2⟩
        · exact hes e (by simp [h3])

theorem upsert_entry_ne_nil {es : List (String × String)} {p : String → Bool}
    {key value : String} : upsert_entry es p key value ≠ [] := by
  unfold upsert_entry
  cases hu : update_first value p es with
  | none => simp
  | some es' =>
      obtain ⟨pre, k0, v0, post, _, _, _, h4⟩ := update_first_some hu
      subst h4
      simp

theorem upsert_keys_of_match {es : List (String × String)} {p : String → Bool}
    {key value : String} (h : ∃ e ∈ es, p e.1 = true) :
    (upsert_entry es p key value).map Prod.fst = es.map Prod.fst := by
  unfold upsert_entry
  cases hu : update_first value p es with
  | none =>
      obtain ⟨e, he, hp⟩ := h
      rw [update_first_none_forall hu e he] at hp
      exact absurd hp (by simp)
  | some es' =>
      obtain ⟨pre, k0, v0, post, hd, _, _, h4⟩ := update_first_some hu
      subst hd h4
      simp

theorem upsert_entry_nodup {es : List (String × String)} {p : String → Bool}
    {key value : String} (hn : (es.map Prod.fst).Nodup) (hk : p key = true) :
    ((upsert_entry es p key value).map Prod.fst).Nodup := by
  unfold upsert_entry
  cases hu : update_first value p es with
  | none =>
      have hall := update_first_none_forall hu
      simp only [List.map_append, List.map_cons, List.map_nil]
      have hkey : key ∉ es.map Prod.fst := by
        intro hmem
        obtain ⟨e, he, hfst⟩ := List.mem_map.mp hmem
        rw [← hfst] at hk
        rw [hall e he] at hk
        exact absurd hk (by simp)
      simp [List.nodup_append, hn, hkey]
  | some es' =>
      obtain ⟨pre, k0, v0, post, hd, _, _, h4⟩ := update_first_some hu
      subst h4
      have : (pre ++ (k0, value) :: post).map Prod.fst
          = es.map Prod.fst := by rw [hd]; simp
      rw [this]
      exact hn

theorem rust_lines_serialize (es : List (String × String)) (hne : es ≠ [])
    (hwf : ∀ e ∈ es, wf_entry e) :
    rust_lines (serialize_entries es) = es.map summary_line := by
  unfold rust_lines
  rw [lines_serialize es hne hwf, List.map_map]
  rfl

/-- C7: touching `last_seen` twice (here at the summary-file level, read
back through `parse_summary`) changes only the `last_seen` value: every
other key keeps its value, the key list is unchanged or extended by the
one first-time `last_seen` insertion, the entry count grows by at most
one, and `last_seen` holds the latest timestamp. -/
theorem C7_touch_last_seen_twice_frame (file t1 t2 : String)
    (hr : '\r' ∉ file.data) (h1 : wf_val t1) (h2 : wf_val t2) :
    parse_summary (touch_last_seen (touch_last_seen file t1) t2)
        = touch_last_seen_entries (touch_last_seen_entries (parse_summary file) t1) t2
    ∧ (parse_summary (touch_last_seen (touch_last_seen file t1) t2)).filter
          (fun e => e.1 != "last_seen")
        = (parse_summary file).filter (fun e => e.1 != "last_seen")
    ∧ ((parse_summary (touch_last_seen (touch_last_seen file t1) t2)).map Prod.fst
          = (parse_summary file).map Prod.fst
        ∨ (parse_summary (touch_last_seen (touch_last_seen file t1) t2)).map Prod.fst
          = (parse_summary file).map Prod.fst ++ ["last_seen"])
    ∧ (parse_summary (touch_last_seen (touch_last_seen file t1) t2)).length
        ≤ (parse_summary file).length + 1
    ∧ (parse_summary (touch_last_seen (touch_last_seen file t1) t2)).find?
          (fun e => e.1 == "last_seen") = some ("last_seen", t2) := by
  have hwf0 := parse_summary_wf file hr
  have hwf_ls_key : wf_key "last_seen" := ⟨by decide, by decide⟩
  have hwf_ls1 : wf_entry ("last_seen", t1) := ⟨hwf_ls_key, h1⟩
  have hwf_ls2 : wf_entry ("last_seen", t2) := ⟨hwf_ls_key, h2⟩
  have hwf1 : ∀ e ∈ touch_last_seen_entries (parse_summary file) t1, wf_entry e :=
    upsert_entry_wf hwf0 hwf_ls1
  have hrt1 : parse_summary (touch_last_seen file t1)
      = touch_last_seen_entries (parse_summary file) t1 :=
    parse_serialize_entries _ upsert_entry_ne_nil hwf1
  have hwf2 : ∀ e ∈ touch_last_seen_entries
      (touch_last_seen_entries (parse_summary file) t1) t2, wf_entry e :=
    upsert_entry_wf hwf1 hwf_ls2
  have hrt2 : parse_summary (touch_last_seen (touch_last_seen file t1) t2)
      = touch_last_seen_entries (touch_last_seen_entries (parse_summary file) t1) t2 := by
    rw [show touch_last_seen (touch_last_seen file t1) t2
        = serialize_entries (touch_last_seen_entries
            (parse_summary (touch_last_seen file t1)) t2) from rfl, hrt1]
    exact parse_serialize_entries _ upsert_entry_ne_nil hwf2
  have hpresent : ∃ e ∈ touch_last_seen_entries (parse_summary file) t1,
      (fun k => k == "last_seen") e.1 = true := by
    refine ⟨("last_seen", t1), ?_, by simp⟩
    exact List.mem_of_find?_eq_some (find_last_seen_touch (parse_summary file) t1)
  refine ⟨hrt2, ?_, ?_, ?_, ?_⟩
  · rw [hrt2, (touch_entries_frame _ t2).1, (touch_entries_frame _ t1).1]
  · rw [hrt2]
    have hkeys2 : (touch_last_seen_entries
          (touch_last_seen_entries (parse_summary file) t1) t2).map Prod.fst
        = (touch_last_seen_entries (parse_summary file) t1).map Prod.fst :=
      upsert_keys_of_match hpresent
    rw [hkeys2]
    exact (touch_entries_frame _ t1).2.1
  · rw [hrt2]
    have hlen2 : (touch_last_seen_entries
          (touch_last_seen_entries (parse_summary file) t1) t2).length
        = (touch_last_seen_entries (parse_summary file) t1).length := by
      have h := congrArg List.length
        (@upsert_keys_of_match (touch_last_seen_entries (parse_summary file) t1)
          (fun k => k == "last_seen") "last_seen" t2 hpresent)
      simpa using h
    rw [hlen2]
    exact (touch_entries_frame _ t1).2.2
  · rw [hrt2]
    exact find_last_seen_touch _ t2

/-- Witness for C7 on a concrete summary file. -/
theorem C7_touch_last_seen_twice_frame_witness :
    parse_summary (touch_last_seen (touch_last_seen "Name: Bob\n" "A") "B")
        = touch_last_seen_entries
            (touch_last_seen_entries (parse_summary "Name: Bob\n") "A") "B"
    ∧ (parse_summary (touch_last_seen (touch_last_seen "Name: Bob\n" "A") "B")).filter
          (fun e => e.1 != "last_seen")
        = (parse_summary "Name: Bob\n").filter (fun e => e.1 != "last_seen")
    ∧ ((parse_summary (touch_last_seen (touch_last_seen "Name: Bob\n" "A") "B")).map
          Prod.fst = (parse_summary "Name: Bob\n").map Prod.fst
        ∨ (parse_summary (touch_last_seen (touch_last_seen "Name: Bob\n" "A") "B")).map
          Prod.fst = (parse_summary "Name: Bob\n").map Prod.fst ++ ["last_seen"])
    ∧ (parse_summary (touch_last_seen (touch_last_seen "Name: Bob\n" "A") "B")).length
        ≤ (parse_summary "Name: Bob\n").length + 1
    ∧ (parse_summary (touch_last_seen (touch_last_seen "Name: Bob\n" "A") "B")).find?
          (fun e => e.1 == "last_seen") = some ("last_seen", "B") :=
  C7_touch_last_seen_twice_frame "Name: Bob\n" "A" "B" (by decide) (by decide) (by decide)

/-- C5 counterexample: `update_summary` on an empty summary with key
`"Name"` produces a state whose stored key is `"Name"` — the mapping is
not keyed by lowercase strings (the given casing is preserved). -/
theorem C5_counterexample_key_not_lowercase :
    parse_summary (update_summary "" "Name" "Bob" "T")
        = [("Name", "Bob"), ("last_seen", "T")]
    ∧ ("Name" : String) ≠ to_lower "Name" := by decide

/-- C5 amended: every summary state produced by `update_summary` or
`touch_last_seen` from a well-formed prior file is a mapping whose keys
are stored with their original casing (not lowercased); its keys are
pairwise distinct (given the prior state had distinct keys), and it is
persisted as exactly one `key: value` line per entry. -/
theorem C5_amended_unique_keys_one_pair_per_line (file key value now : String)
    (hr : '\r' ∉ file.data)
    (hnodup : ((parse_summary file).map Prod.fst).Nodup)
    (hk : wf_key key) (hv : wf_val value) (hn : wf_val now) :
    ((update_summary_entries (parse_summary file) key value now).map Prod.fst).Nodup
    ∧ rust_lines (update_summary file key value now)
        = (update_summary_entries (parse_summary file) key value now).map summary_line
    ∧ ((touch_last_seen_entries (parse_summary file) now).map Prod.fst).Nodup
    ∧ rust_lines (touch_last_seen file now)
        = (touch_last_seen_entries (parse_summary file) now).map summary_line := by
  have hwf0 := parse_summary_wf file hr
  have hwf_ls_key : wf_key "last_seen" := ⟨by decide, by decide⟩
  have hwf_ls : wf_entry ("last_seen", now) := ⟨hwf_ls_key, hn⟩
  have hwf_kv : wf_entry (key, value) := ⟨hk, hv⟩
  have hwf1 : ∀ e ∈ upsert_entry (parse_summary file)
      (fun k => to_lower k == to_lower key) key value, wf_entry e :=
    upsert_entry_wf hwf0 hwf_kv
  have hwf2 : ∀ e ∈ update_summary_entries (parse_summary file) key value now,
      wf_entry e := by
    rw [update_summary_entries_eq_touch]
    exact upsert_entry_wf hwf1 hwf_ls
  refine ⟨?_, ?_, ?_, ?_⟩
  · rw [update_summary_entries_eq_touch]
    exact upsert_entry_nodup (upsert_entry_nodup hnodup (by simp)) (by simp)
  · exact rust_lines_serialize _
      (by rw [update_summary_entries_eq_touch]; exact upsert_entry_ne_nil) hwf2
  · exact upsert_entry_nodup hnodup (by simp)
  · exact rust_lines_serialize _ upsert_entry_ne_nil (upsert_entry_wf hwf0 hwf_ls)

/-- Witness for C5 (amended) on a concrete file and key. -/
theorem C5_amended_unique_keys_witness :
    ((update_summary_entries (parse_summary "") "Name" "Bob" "T").map Prod.fst).Nodup
    ∧ rust_lines (update_summary "" "Name" "Bob" "T")
        = (update_summary_entries (parse_summary "") "Name" "Bob" "T").map summary_line
    ∧ ((touch_last_seen_entries (parse_summary "") "T").map Prod.fst).Nodup
    ∧ rust_lines (touch_last_seen "" "T")
        = (touch_last_seen_entries (parse_summary "") "T").map summary_line :=
  C5_amended_unique_keys_one_pair_per_line "" "Name" "Bob" "T"
    (by decide) (by decide) (by decide) (by decide) (by decide)

/-! ### Completion client (`src/llm.rs`) -/

/-- The decoded response body shape (`ChatResponse`/`Choice`/`ResponseMessage`). -/
structure ResponseMessage where
  content : String
deriving Repr, DecidableEq

structure Choice where
  message : ResponseMessage
deriving Repr, DecidableEq

structure ChatResponse where
  choices : List Choice
deriving Repr, DecidableEq

/-- What the HTTP layer hands back to `LlmClient::chat`: a transport
failure, or a response with a status (success flag and code) and body. -/
inductive HttpOutcome where
  | transportFail (cause : String)
  | response (statusSuccess : Bool) (status : Nat) (body : String)
deriving Repr, DecidableEq

/-- The distinct failure sites of `LlmClient::chat`, one constructor per
`context`/`bail!`/`anyhow!` in the source. -/
inductive LlmFailure where
  | sendFailed (cause : String)
  | apiStatus (status : Nat) (body : String)
  | parseFailed (body : String)
  | noChoices
deriving Repr, DecidableEq

/-- `LlmClient::chat`: the HTTP outcome is a parameter, and JSON decoding
of the body into `ChatResponse` is the `decode` parameter (serde is
outside the embedded code). -/
def LlmClient.chat (outcome : HttpOutcome)
    (decode : String → Option ChatResponse) : Except LlmFailure String :=
  match outcome with
  | HttpOutcome.transportFail cause => Except.error (LlmFailure.sendFailed cause)
  | HttpOutcome.response statusSuccess _status body =>
      if ¬ statusSuccess then
        Except.error (LlmFailure.apiStatus _status body)
      else
        match decode body with
        | none => Except.error (LlmFailure.parseFailed body)
        | some cr =>
            match cr.choices.head? with
            | none => Except.error LlmFailure.noChoices
            | some c => Except.ok c.message.content

/-- Modelled from the spec: the spec's error taxonomy for the completion
client (`TransportError`, `ApiError` with status and body,
`ProtocolError`), as a classification of the concrete failure sites. -/
inductive SpecLlmError where
  | transportError
  | apiError (status : Nat) (body : String)
  | protocolError
deriving Repr, DecidableEq

/-- Modelled from the spec: which taxonomy class each failure site of
`LlmClient::chat` falls into. -/
def classify_failure : LlmFailure → SpecLlmError
  | LlmFailure.sendFailed _ => SpecLlmError.transportError
  | LlmFailure.apiStatus s b => SpecLlmError.apiError s b
  | LlmFailure.parseFailed _ => SpecLlmError.protocolError
  | LlmFailure.noChoices => SpecLlmError.protocolError

/-- C9: `LlmClient::chat` returns the first choice's message content on a
successful transport-and-status response whose body decodes to a
non-empty choices list; otherwise it fails with exactly one of the
spec's classes — a transport error on network failure, an API error
carrying status code and body text on a non-success status, and a
protocol error when the body does not decode or the choices list is
empty. -/
theorem C9_chat_result_classification (outcome : HttpOutcome)
    (decode : String → Option ChatResponse) :
    (∀ status body cr c cs, outcome = HttpOutcome.response true status body →
        decode body = some cr → cr.choices = c :: cs →
        LlmClient.chat outcome decode = Except.ok c.message.content)
    ∧ (∀ cause, outcome = HttpOutcome.transportFail cause →
        LlmClient.chat outcome decode = Except.error (LlmFailure.sendFailed cause)
        ∧ classify_failure (LlmFailure.sendFailed cause) = SpecLlmError.transportError)
    ∧ (∀ status body, outcome = HttpOutcome.response false status body →
        LlmClient.chat outcome decode = Except.error (LlmFailure.apiStatus status body)
        ∧ classify_failure (LlmFailure.apiStatus status body)
            = SpecLlmError.apiError status body)
    ∧ (∀ status body, outcome = HttpOutcome.response true status body →
        decode body = none →
        LlmClient.chat outcome decode = Except.error (LlmFailure.parseFailed body)
        ∧ classify_failure (LlmFailure.parseFailed body) = SpecLlmError.protocolError)
    ∧ (∀ status body cr, outcome = HttpOutcome.response true status body →
        decode body = some cr → cr.choices = [] →
        LlmClient.chat outcome decode = Except.error LlmFailure.noChoices
        ∧ classify_failure LlmFailure.noChoices = SpecLlmError.protocolError)
    ∧ (∀ f, LlmClient.chat outcome decode = Except.error f →
        classify_failure f = SpecLlmError.transportError
        ∨ (∃ status body, classify_failure f = SpecLlmError.apiError status body)
        ∨ classify_failure f = SpecLlmError.protocolError) := by
  refine ⟨?_, ?_, ?_, ?_, ?_, ?_⟩
  · rintro status body cr c cs rfl hdec hch
    simp [LlmClient.chat, hdec, hch]
  · rintro cause rfl
    exact ⟨rfl, rfl⟩
  · rintro status body rfl
    exact ⟨by simp [LlmClient.chat], rfl⟩
  · rintro status body rfl hdec
    exact ⟨by simp [LlmClient.chat, hdec], rfl⟩
  · rintro status body cr rfl hdec hch
    exact ⟨by simp [LlmClient.chat, hdec, hch], rfl⟩
  · intro f _
    cases f with
    | sendFailed c => exact Or.inl rfl
    | apiStatus s b => exact Or.inr (Or.inl ⟨s, b, rfl⟩)
    | parseFailed b => exact Or.inr (Or.inr rfl)
    | noChoices => exact Or.inr (Or.inr rfl)

/-- Witness for C9: one concrete outcome per branch of the contract. -/
theorem C9_chat_result_classification_witness :
    LlmClient.chat (HttpOutcome.response true 200 "ok")
        (fun _ => some ⟨[⟨⟨"hi"⟩⟩]⟩) = Except.ok "hi"
    ∧ LlmClient.chat (HttpOutcome.transportFail "dns") (fun _ => none)
        = Except.error (LlmFailure.sendFailed "dns")
    ∧ LlmClient.chat (HttpOutcome.response false 500 "overloaded") (fun _ => none)
        = Except.error (LlmFailure.apiStatus 500 "overloaded")
    ∧ LlmClient.chat (HttpOutcome.response true 200 "junk") (fun _ => none)
        = Except.error (LlmFailure.parseFailed "junk")
    ∧ LlmClient.chat (HttpOutcome.response true 200 "nochoice") (fun _ => some ⟨[]⟩)
        = Except.error LlmFailure.noChoices :=
  ⟨(C9_chat_result_classification (HttpOutcome.response true 200 "ok")
      (fun _ => some ⟨[⟨⟨"hi"⟩⟩]⟩)).1 200 "ok" ⟨[⟨⟨"hi"⟩⟩]⟩ ⟨⟨"hi"⟩⟩ [] rfl rfl rfl,
   ((C9_chat_result_classification (HttpOutcome.transportFail "dns")
      (fun _ => none)).2.1 "dns" rfl).1,
   ((C9_chat_result_classification (HttpOutcome.response false 500 "overloaded")
      (fun _ => none)).2.2.1 500 "overloaded" rfl).1,
   ((C9_chat_result_classification (HttpOutcome.response true 200 "junk")
      (fun _ => none)).2.2.2.1 200 "junk" rfl rfl).1,
   ((C9_chat_result_classification (HttpOutcome.response true 200 "nochoice")
      (fun _ => some ⟨[]⟩)).2.2.2.2.1 200 "nochoice" ⟨[]⟩ rfl rfl rfl).1⟩

end Telllm
